import Mathlib

/-!
Verification of the RenormIsing program: a block-spin renormalization-group
transformation for a 1-D periodic nearest-neighbor Ising chain of 6 spins,
mapped via majority rule onto a 2-spin periodic Ising system.

The definitions below are a shallow embedding of `src/RenormIsing/Source.cpp`:
`majority_rule` and `energy` embed the two template functions, and the
remaining definitions embed the enumeration, coarse-graining, aggregation and
emission steps of `main`.
-/

namespace RenormIsing

/-- Embeds `majority_rule(first, last)`: `std::accumulate` of the range with
initial value 0 (a left fold), then `if (s>0) return 1; return -1;`. -/
def majority_rule (l : List Int) : Int :=
  let s := l.foldl (· + ·) 0
  if s > 0 then 1 else -1

/-- Embeds the loop in `energy`: `for (It k = first; k<last - 1; ++k) s += (*k)*(*(k+1));`,
the sum of products of adjacent elements (no wrap-around). -/
def adjSum : List Int → Int
  | [] => 0
  | [_] => 0
  | a :: b :: rest => a * b + adjSum (b :: rest)

/-- Embeds `energy(first, last)`: the adjacent-pair loop followed by the
wrap-around term `s += (*(last - 1))*(*first);`. Index `length - 1` is
`last - 1` and index `0` is `first`. -/
def energy (l : List Int) : Int :=
  adjSum l + l.getD (l.length - 1) 0 * l.getD 0 0

/-- Embeds the per-mask decoding loop in `main`:
`bitset<6> bits(mask); spin1.push_back(bits[5-i] ? 1 : -1)` for `i = 0..5`. -/
def decodeConfig (k : Nat) : List Int :=
  (List.range 6).map (fun i => if Nat.testBit k (5 - i) then 1 else -1)

/-- Modelled from the spec: the inverse of the bit mapping of §4.1 (the source
only decodes; re-encoding is the spec's stated inverse: spin value +1 at site
i+1 contributes bit 5-i). -/
def encodeConfig (s : List Int) : Nat :=
  (List.range 6).foldl (fun acc i => acc + if s.getD i 0 = 1 then 2 ^ (5 - i) else 0) 0

/-- Embeds `majority_rule(spin1.begin(), spin1.begin() + 3)`: the first
coarse-grained spin of configuration `k`. -/
def spin1p (k : Nat) : Int := majority_rule ((decodeConfig k).take 3)

/-- Embeds `majority_rule(spin1.begin() + 3, spin1.end())`: the second
coarse-grained spin of configuration `k`. -/
def spin2p (k : Nat) : Int := majority_rule ((decodeConfig k).drop 3)

/-- Embeds `H1 = energy(spin1.begin(), spin1.end())`: the original energy of
configuration `k`. -/
def H1 (k : Nat) : Int := energy (decodeConfig k)

/-- Embeds `H2 = energy(spin2.begin(), spin2.end())`: the generic energy
functional applied to the two-element block spin vector. -/
def H2 (k : Nat) : Int := energy [spin1p k, spin2p k]

/-- Embeds `++counts[x]` on a `std::map<int,int>` modelled as an ascending
sorted association list: insert a fresh entry with count 1 for a first-seen
key, increment the count of an existing key. -/
def mapIncr (x : Int) : List (Int × Int) → List (Int × Int)
  | [] => [(x, 1)]
  | (k, c) :: rest =>
    if x < k then (x, 1) :: (k, c) :: rest
    else if x = k then (k, c + 1) :: rest
    else (k, c) :: mapIncr x rest

/-- Embeds the accumulation of `counts_primed_spins_equal`: over all 64 masks,
when `spin2[0] == spin2[1]`, increment the count for key `H1`. -/
def countsEqual : List (Int × Int) :=
  ((List.range 64).filter (fun k => spin1p k == spin2p k)).foldl
    (fun m k => mapIncr (H1 k) m) []

/-- Embeds the accumulation of `counts_primed_spins_unequal`: over all 64
masks, when `spin2[0] != spin2[1]`, increment the count for key `H1`. -/
def countsUnequal : List (Int × Int) :=
  ((List.range 64).filter (fun k => spin1p k != spin2p k)).foldl
    (fun m k => mapIncr (H1 k) m) []

/-- Embeds `ofs << i->second << " Exp[" << i->first << " k]";`: one rendered
summary term for key `k` with count `c`. -/
def termStr (k c : Int) : String := toString c ++ " Exp[" ++ toString k ++ " k]"

/-- Embeds the emission loop over a counts map with its `first_iter` flag:
every term after the first is preceded by `"+ "`. -/
def emitLoop : List (Int × Int) → Bool → String
  | [], _ => ""
  | (k, c) :: rest, firstIter =>
    (if firstIter then "" else "+ ") ++ termStr k c ++ emitLoop rest false

/-- The ASCII apostrophe character used in the two output labels. -/
def primeChar : Char := Char.ofNat 39

/-- Embeds the literal label written before the equal-class equation. -/
def labelEqual : String := "Exp[A(k)+2k" ++ String.mk [primeChar] ++ "] = "

/-- Embeds the literal label written before the unequal-class equation. -/
def labelUnequal : String := "Exp[A(k)-2k" ++ String.mk [primeChar] ++ "] = "

/-- Line 1 of the summary artifact `renorm_out.txt` (without the newline). -/
def line1 : String := labelEqual ++ emitLoop countsEqual true

/-- Line 2 of the summary artifact `renorm_out.txt` (without the newline). -/
def line2 : String := labelUnequal ++ emitLoop countsUnequal true

/-- Modelled from the spec (§6): a summary line is the class label followed by
the rendered terms joined with `"+ "`. -/
def specLine (label : String) (tbl : List (Int × Int)) : String :=
  label ++ String.intercalate "+ " (tbl.map (fun p => termStr p.1 p.2))

/-- Modelled from the spec (§3, Energy): `E = Σ_{i=1}^{n} s_i · s_{(i mod n)+1}`,
re-indexed to 0-based: `E = Σ_{i=0}^{n-1} s_i · s_{(i+1) mod n}`. -/
def specEnergy (l : List Int) : Int :=
  ∑ i ∈ Finset.range l.length, l.getD i 0 * l.getD ((i + 1) % l.length) 0

/-! Helper lemmas about `adjSum` and `energy`. -/

theorem adjSum_cons_cons (a b : Int) (t : List Int) :
    adjSum (a :: b :: t) = a * b + adjSum (b :: t) := rfl

theorem getD_zero_eq_headD (l : List Int) : l.getD 0 0 = l.headD 0 := by
  cases l <;> rfl

theorem getD_length_pred (l : List Int) : l.getD (l.length - 1) 0 = l.getLastD 0 := by
  induction l with
  | nil => rfl
  | cons a t ih =>
    cases t with
    | nil => rfl
    | cons b t' =>
      rw [List.getLastD_cons]
      have h1 : (a :: b :: t').length - 1 = t'.length + 1 := rfl
      rw [h1, List.getD_cons_succ]
      have h2 : t'.length = (b :: t').length - 1 := rfl
      rw [h2, ih, List.getLastD_cons, List.getLastD_cons]

theorem energy_headD (l : List Int) :
    energy l = adjSum l + l.getLastD 0 * l.headD 0 := by
  rw [energy, getD_length_pred, getD_zero_eq_headD]

theorem adjSum_concat (xs : List Int) (y : Int) (h : xs ≠ []) :
    adjSum (xs ++ [y]) = adjSum xs + xs.getLastD 0 * y := by
  induction xs with
  | nil => exact absurd rfl h
  | cons a t ih =>
    cases t with
    | nil =>
      show a * y + 0 = 0 + a * y
      ring
    | cons b t' =>
      rw [List.cons_append, List.cons_append, adjSum_cons_cons, ← List.cons_append,
        ih (by simp), adjSum_cons_cons, List.getLastD_cons, List.getLastD_cons,
        List.getLastD_cons]
      ring

theorem getLastD_reverse (l : List Int) : l.reverse.getLastD 0 = l.headD 0 := by
  rw [List.getLastD_eq_getLast?, ← List.head?_reverse, List.reverse_reverse,
    ← List.headD_eq_head?]

theorem headD_reverse (l : List Int) : l.reverse.headD 0 = l.getLastD 0 := by
  rw [List.headD_eq_head?, List.head?_reverse, ← List.getLastD_eq_getLast?]

theorem adjSum_reverse (l : List Int) : adjSum l.reverse = adjSum l := by
  induction l with
  | nil => rfl
  | cons a t ih =>
    cases t with
    | nil => rfl
    | cons b t' =>
      rw [List.reverse_cons, adjSum_concat _ _ (by simp), ih, getLastD_reverse,
        adjSum_cons_cons]
      show adjSum (b :: t') + b * a = a * b + adjSum (b :: t')
      ring

theorem energy_reverse (l : List Int) : energy l.reverse = energy l := by
  rw [energy_headD, energy_headD, adjSum_reverse, getLastD_reverse, headD_reverse]
  ring

theorem headD_append_of_ne_nil (xs ys : List Int) (h : xs ≠ []) :
    (xs ++ ys).headD 0 = xs.headD 0 := by
  cases xs with
  | nil => exact absurd rfl h
  | cons a t => rfl

theorem energy_concat (t : List Int) (a : Int) (h : t ≠ []) :
    energy (t ++ [a]) = adjSum t + t.getLastD 0 * a + a * t.headD 0 := by
  rw [energy_headD, adjSum_concat _ _ h, List.getLastD_concat, headD_append_of_ne_nil _ _ h]

theorem energy_rotate_one (l : List Int) : energy (l.rotate 1) = energy l := by
  cases l with
  | nil => rfl
  | cons a t =>
    have hrot : (a :: t).rotate 1 = t ++ [a] := by
      simpa using List.rotate_cons_succ t a 0
    cases t with
    | nil => rw [hrot, List.nil_append]
    | cons b t' =>
      rw [hrot, energy_concat _ _ (by simp), energy_headD, adjSum_cons_cons,
        List.getLastD_cons, List.getLastD_cons, List.getLastD_cons]
      show adjSum (b :: t') + t'.getLastD b * a + a * b
        = a * b + adjSum (b :: t') + t'.getLastD b * a
      ring

theorem energy_rotate (l : List Int) (n : Nat) : energy (l.rotate n) = energy l := by
  induction n generalizing l with
  | zero => rw [List.rotate_zero]
  | succ m ih =>
    have h : l.rotate (m + 1) = (l.rotate 1).rotate m := by
      rw [List.rotate_rotate, Nat.add_comm]
    rw [h, ih, energy_rotate_one]

theorem adjSum_eq_sum (l : List Int) :
    adjSum l = ∑ i ∈ Finset.range (l.length - 1), l.getD i 0 * l.getD (i + 1) 0 := by
  induction l with
  | nil => rfl
  | cons a t ih =>
    cases t with
    | nil => rfl
    | cons b t' =>
      rw [adjSum_cons_cons, ih]
      have hlen : (a :: b :: t').length - 1 = t'.length + 1 := rfl
      have hlen2 : (b :: t').length - 1 = t'.length := rfl
      rw [hlen, hlen2, Finset.sum_range_succ']
      have hcong : ∀ i ∈ Finset.range t'.length,
          (a :: b :: t').getD (i + 1) 0 * (a :: b :: t').getD (i + 1 + 1) 0
            = (b :: t').getD i 0 * (b :: t').getD (i + 1) 0 := by
        intro i _
        rw [List.getD_cons_succ, List.getD_cons_succ]
      rw [Finset.sum_congr rfl hcong]
      show a * b + ∑ i ∈ Finset.range t'.length, (b :: t').getD i 0 * (b :: t').getD (i + 1) 0
        = (∑ i ∈ Finset.range t'.length, (b :: t').getD i 0 * (b :: t').getD (i + 1) 0)
          + (a :: b :: t').getD 0 0 * (a :: b :: t').getD (0 + 1) 0
      rw [List.getD_cons_succ, List.getD_cons_zero, List.getD_cons_zero]
      ring

/-! The claims. -/

/-- C1: for every ordered ring of n ≥ 2 spin values in {+1,-1}, `energy`
returns the integer sum over all adjacent pairs of the product of the two
spins, including the wrap-around pair between the last element and the
first: `E = Σ_i s_i · s_((i mod n)+1)` (stated 0-based as `specEnergy`). -/
theorem energy_matches_specEnergy (l : List Int)
    (hpm : ∀ x ∈ l, x = 1 ∨ x = -1) (hlen : 2 ≤ l.length) :
    energy l = specEnergy l := by
  obtain ⟨m, hm⟩ : ∃ m, l.length = m + 1 := ⟨l.length - 1, by omega⟩
  rw [specEnergy, hm, Finset.sum_range_succ, Nat.mod_self]
  have hcong : ∀ i ∈ Finset.range m,
      l.getD i 0 * l.getD ((i + 1) % (m + 1)) 0 = l.getD i 0 * l.getD (i + 1) 0 := by
    intro i hi
    have hi' : i < m := Finset.mem_range.mp hi
    rw [Nat.mod_eq_of_lt (by omega)]
  rw [Finset.sum_congr rfl hcong, energy, adjSum_eq_sum, hm]
  simp only [Nat.add_sub_cancel]

theorem energy_matches_specEnergy_witness :
    energy [1, -1, 1] = specEnergy [1, -1, 1] :=
  energy_matches_specEnergy [1, -1, 1] (by decide) (by decide)

/-- C2: for every input of three values in {+1,-1}, `majority_rule` returns
+1 exactly when their sum is strictly positive and -1 otherwise; in
particular the output is always +1 or -1, and the four named concrete
evaluations hold. -/
theorem majority_rule_spec (a b c : Int)
    (ha : a = 1 ∨ a = -1) (hb : b = 1 ∨ b = -1) (hc : c = 1 ∨ c = -1) :
    (majority_rule [a, b, c] = if a + b + c > 0 then 1 else -1) ∧
    (majority_rule [a, b, c] = 1 ∨ majority_rule [a, b, c] = -1) ∧
    majority_rule [1, 1, 1] = 1 ∧ majority_rule [-1, -1, -1] = -1 ∧
    majority_rule [1, 1, -1] = 1 ∧ majority_rule [-1, -1, 1] = -1 := by
  rcases ha with rfl | rfl <;> rcases hb with rfl | rfl <;> rcases hc with rfl | rfl <;> decide

theorem majority_rule_spec_witness :
    (majority_rule [1, 1, -1] = if (1 : Int) + 1 + -1 > 0 then 1 else -1) ∧
    (majority_rule [1, 1, -1] = 1 ∨ majority_rule [1, 1, -1] = -1) ∧
    majority_rule [1, 1, 1] = 1 ∧ majority_rule [-1, -1, -1] = -1 ∧
    majority_rule [1, 1, -1] = 1 ∧ majority_rule [-1, -1, 1] = -1 :=
  majority_rule_spec 1 1 (-1) (Or.inl rfl) (Or.inl rfl) (Or.inr rfl)

/-- C3: for every enumerated configuration, the coarse-grained energy `H2`,
computed by the generic cyclic `energy` on the two-element block pair,
equals `2 * s1' * s2'`, hence is exactly +2 or -2. -/
theorem H2_twice_product : ∀ k, k < 64 →
    H2 k = 2 * spin1p k * spin2p k ∧ (H2 k = 2 ∨ H2 k = -2) := by decide

theorem H2_twice_product_witness :
    H2 42 = 2 * spin1p 42 * spin2p 42 ∧ (H2 42 = 2 ∨ H2 42 = -2) :=
  H2_twice_product 42 (by decide)

/-- C4: for every k in [0,63], the enumerator decodes k into a length-6 ±1
sequence mapping bit value 1 to +1 and 0 to -1, with bit index 5-i assigned
to site i+1 (most significant of the 6 bits to s1), and re-encoding under
the inverse mapping returns k, so decoding is injective on [0,63]. -/
theorem decode_encode_round_trip : ∀ k, k < 64 →
    (decodeConfig k).length = 6 ∧
    (∀ i, i < 6 → (decodeConfig k).getD i 0 = if Nat.testBit k (5 - i) then 1 else -1) ∧
    encodeConfig (decodeConfig k) = k := by decide

theorem decode_encode_round_trip_witness :
    (decodeConfig 42).length = 6 ∧
    (decodeConfig 42).getD 0 0 = (if Nat.testBit 42 (5 - 0) then 1 else -1) ∧
    encodeConfig (decodeConfig 42) = 42 :=
  ⟨(decode_encode_round_trip 42 (by decide)).1,
    (decode_encode_round_trip 42 (by decide)).2.1 0 (by decide),
    (decode_encode_round_trip 42 (by decide)).2.2⟩

/-- C5: the classification into the equal class (s1' = s2') and the unequal
class (s1' ≠ s2') is a total partition: the two class sizes sum to 64, the
counts of the two grouped tables sum to 64, and each configuration satisfies
exactly one of the two class tests. -/
theorem partition_totality :
    ((List.range 64).filter (fun k => spin1p k == spin2p k)).length
      + ((List.range 64).filter (fun k => spin1p k != spin2p k)).length = 64 ∧
    (countsEqual.map Prod.snd).sum + (countsUnequal.map Prod.snd).sum = 64 ∧
    ∀ k, k < 64 → (spin1p k == spin2p k) ≠ (spin1p k != spin2p k) := by decide

theorem partition_totality_witness :
    (spin1p 0 == spin2p 0) ≠ (spin1p 0 != spin2p 0) :=
  partition_totality.2.2 0 (by decide)

/-- C6: for every enumerated configuration, the original energy `H1` is an
even integer in {-6,-4,-2,0,2,4,6}, and every `H1` key appearing in either
grouped table is an even integer in [-6,6]. -/
theorem H1_even_bounded :
    (∀ k, k < 64 → H1 k ∈ ([-6, -4, -2, 0, 2, 4, 6] : List Int)) ∧
    ∀ p ∈ countsEqual ++ countsUnequal, p.1 % 2 = 0 ∧ -6 ≤ p.1 ∧ p.1 ≤ 6 := by decide

theorem H1_even_bounded_witness :
    H1 3 ∈ ([-6, -4, -2, 0, 2, 4, 6] : List Int) :=
  H1_even_bounded.1 3 (by decide)

/-- C7: the energy functional is invariant under reversal and under rotation
of the ring: for every ring of ±1 spins of length ≥ 2, reversing the order
leaves `energy` unchanged, and every cyclic shift leaves `energy`
unchanged. -/
theorem energy_ring_symmetries (l : List Int)
    (hpm : ∀ x ∈ l, x = 1 ∨ x = -1) (hlen : 2 ≤ l.length) :
    energy l.reverse = energy l ∧ ∀ n, energy (l.rotate n) = energy l :=
  ⟨energy_reverse l, fun n => energy_rotate l n⟩

theorem energy_ring_symmetries_witness :
    energy ([1, -1, 1] : List Int).reverse = energy [1, -1, 1] ∧
    energy (([1, -1, 1] : List Int).rotate 5) = energy [1, -1, 1] :=
  ⟨(energy_ring_symmetries [1, -1, 1] (by decide) (by decide)).1,
    (energy_ring_symmetries [1, -1, 1] (by decide) (by decide)).2 5⟩

/-- C8: each summary line is its fixed class label followed by one term
`<count> Exp[<H1> k]` per distinct `H1` key of its class, keys iterated in
strictly ascending order, consecutive terms joined by `"+ "`; line 1 is the
equal class, line 2 the unequal class. The counts are the class occurrence
counts and every `H1` value of a class appears among its keys. -/
theorem summary_lines_spec :
    line1 = specLine labelEqual countsEqual ∧
    line2 = specLine labelUnequal countsUnequal ∧
    List.Pairwise (· < ·) (countsEqual.map Prod.fst) ∧
    List.Pairwise (· < ·) (countsUnequal.map Prod.fst) ∧
    (∀ p ∈ countsEqual, p.2 = (((List.range 64).filter
      (fun k => (spin1p k == spin2p k) && (H1 k == p.1))).length : Int)) ∧
    (∀ p ∈ countsUnequal, p.2 = (((List.range 64).filter
      (fun k => (spin1p k != spin2p k) && (H1 k == p.1))).length : Int)) ∧
    ∀ k, k < 64 → (spin1p k = spin2p k → H1 k ∈ countsEqual.map Prod.fst) ∧
      (spin1p k ≠ spin2p k → H1 k ∈ countsUnequal.map Prod.fst) := by decide

theorem summary_lines_spec_witness :
    ((-2 : Int), (14 : Int)) ∈ countsEqual ∧
    (14 : Int) = (((List.range 64).filter
      (fun k => (spin1p k == spin2p k) && (H1 k == (-2 : Int)))).length : Int) :=
  ⟨by decide, summary_lines_spec.2.2.2.2.1 ((-2 : Int), (14 : Int)) (by decide)⟩

/-- C9: applied to a single-element range, `energy` is total and returns the
square of the lone spin, i.e. 1 for every spin in {+1,-1}: the adjacent-pair
loop contributes nothing and only the wrap-around term remains. -/
theorem energy_single_site (s : Int) (h : s = 1 ∨ s = -1) :
    adjSum [s] = 0 ∧ energy [s] = s * s ∧ energy [s] = 1 := by
  rcases h with rfl | rfl <;> decide

theorem energy_single_site_witness :
    adjSum [-1] = 0 ∧ energy [-1] = -1 * -1 ∧ energy [-1] = 1 :=
  energy_single_site (-1) (Or.inr rfl)

/-- C10: `majority_rule` is total on the empty range: the accumulated sum of
an empty range is 0, the strict test `0 > 0` fails, and the result is -1. -/
theorem majority_rule_empty :
    ([] : List Int).foldl (· + ·) 0 = 0 ∧ majority_rule ([] : List Int) = -1 := by decide

end RenormIsing
